import Mathlib

/-!
# HomeEase expense tracker — verification of the record-store core

Shallow embedding of `src/homeease/scripts/homeease.py` (the record-store and
category-management subsystem).  Strings are modelled as Lean `String`s /
`List Char`; the CSV record store is a `List (List String)`; numeric amounts
are modelled as exact rationals (`ℚ`), i.e. Python's `float` conversion of the
digits-and-dot residue is read as the exact decimal it denotes.
-/

set_option maxRecDepth 8000

deriving instance DecidableEq for Except

namespace HomeEase

/-- The typed errors of the amount parser (the Python function prints a message
and returns `None`; each message corresponds to one constructor). -/
inductive AmountError where
  | NegativeValue
  | CommaNotDecimal
  | MalformedNumber
  | NotANumber
  | NonPositiveAmount
deriving DecidableEq, Repr

/-- Python `str.strip()`: drop whitespace from both ends. -/
def strip (l : List Char) : List Char :=
  ((l.dropWhile Char.isWhitespace).reverse.dropWhile Char.isWhitespace).reverse

/-- Python `re.match(r"^\d+,\d+$", s)`: one or more digits, a comma, one or
more digits, end of string.  Since the continuation after `\d+` can never
start with a digit, the greedy regex is equivalent to this deterministic
maximal-munch matcher. -/
def matchCommaTypo (l : List Char) : Bool :=
  let ds := l.takeWhile (fun c => c.isDigit)
  let rest := l.dropWhile (fun c => c.isDigit)
  !ds.isEmpty &&
    match rest with
    | ',' :: r2 => !r2.isEmpty && r2.all (fun c => c.isDigit)
    | _ => false

/-- Matcher for the regex fragment `(,\d{3})*(\.\d+)?$`. -/
def matchRest : List Char → Bool
  | [] => true
  | ',' :: a :: b :: c :: rest => a.isDigit && b.isDigit && c.isDigit && matchRest rest
  | '.' :: rest => !rest.isEmpty && rest.all (fun c => c.isDigit)
  | _ => false

/-- Python `re.match(r"^\d{1,3}(,\d{3})*(\.\d+)?$", s)`: a group of 1–3
digits, then comma-separated groups of exactly 3 digits, then an optional
decimal part.  After the leading group the pattern continues with `,`, `.` or
end of string — never a digit — so the greedy regex is equivalent to this
deterministic matcher. -/
def matchNumFormat : List Char → Bool
  | [] => false
  | c1 :: rest =>
    if c1.isDigit then
      match rest with
      | [] => true
      | c2 :: rest2 =>
        if c2.isDigit then
          match rest2 with
          | [] => true
          | c3 :: rest3 => if c3.isDigit then matchRest rest3 else matchRest rest2
        else matchRest rest
    else false

/-- Value of a decimal digit string (most significant digit first). -/
def natVal (l : List Char) : ℕ := l.foldl (fun a c => a * 10 + (c.toNat - 48)) 0

/-- Python `float(s)` restricted to the residue that can reach it here
(digits, dots and commas with the commas already removed): it succeeds iff
the string has at most one dot, at least one digit and nothing but digits and
dots, and then denotes the exact decimal value. -/
def parseFloat (l : List Char) : Option ℚ :=
  if l.all (fun c => c.isDigit || c == '.') ∧ l.count '.' ≤ 1 ∧ l.any (fun c => c.isDigit) then
    let intPart := l.takeWhile (fun c => c != '.')
    let fracPart := (l.dropWhile (fun c => c != '.')).drop 1
    some (mkRat (natVal intPart * 10 ^ fracPart.length + natVal fracPart) (10 ^ fracPart.length))
  else none

/-- `validate_amount`, on the character list of the input. -/
def validateChars (l : List Char) : Except AmountError ℚ :=
  let stripped := strip l
  if stripped.head? = some '-' then .error .NegativeValue
  else if matchCommaTypo stripped then .error .CommaNotDecimal
  else
    let clean := l.filter (fun c => c.isDigit || c == '.' || c == ',')
    if clean.count ',' ≠ 0 ∧ matchNumFormat clean = false then .error .MalformedNumber
    else
      match parseFloat (clean.filter (fun c => c != ',')) with
      | none => .error .NotANumber
      | some v => if v ≤ 0 then .error .NonPositiveAmount else .ok v

/-- `validate_amount(input_amount)` from `homeease.py`. -/
def validate_amount (s : String) : Except AmountError ℚ := validateChars s.toList

/-! ## Display formatting of amounts

`add_expense` and `edit_expense` persist the parsed amount as the Python
f-string `f"{amount:,.2f}"`: decimal digits grouped in threes by commas,
a decimal point, and exactly two fraction digits.  An amount with at most two
fraction digits is represented by its number of cents `n : ℕ`. -/

/-- Decimal digit characters of `n`, most significant first, with explicit
fuel (any fuel above `n` is enough). -/
def natCharsF : ℕ → ℕ → List Char
  | 0, _ => []
  | fuel + 1, n =>
    if n < 10 then [Nat.digitChar n]
    else natCharsF fuel (n / 10) ++ [Nat.digitChar (n % 10)]

/-- Decimal digit characters of `n`, most significant first (no leading
zeros, `"0"` for zero). -/
def natChars (n : ℕ) : List Char := natCharsF (n + 1) n

/-- A 3-digit zero-padded group, for `r < 1000`. -/
def pad3 (r : ℕ) : List Char :=
  [Nat.digitChar (r / 100), Nat.digitChar (r / 10 % 10), Nat.digitChar (r % 10)]

/-- A 2-digit zero-padded group, for `r < 100`. -/
def pad2 (r : ℕ) : List Char :=
  [Nat.digitChar (r / 10), Nat.digitChar (r % 10)]

/-- The integer part of the Python `,` format spec, with explicit fuel. -/
def commaGroupF : ℕ → ℕ → List Char
  | 0, _ => []
  | fuel + 1, m =>
    if m < 1000 then natChars m
    else commaGroupF fuel (m / 1000) ++ ',' :: pad3 (m % 1000)

/-- The integer part of the Python `,` format spec: decimal digits of `m`
with a comma between three-digit groups. -/
def commaGroup (m : ℕ) : List Char := commaGroupF (m + 1) m

/-- `f"{amount:,.2f}"` for the amount `n / 100` (`n` in cents): the display
string written to the record store when persisting. -/
def format_amount (n : ℕ) : String :=
  ⟨commaGroup (n / 100) ++ '.' :: pad2 (n % 100)⟩

example : format_amount 123456 = "1,234.56" := by decide
example : format_amount 500000 = "5,000.00" := by decide
example : format_amount 50 = "0.50" := by decide
example : format_amount 123456789 = "1,234,567.89" := by decide

/-! ## The record store

A persisted CSV row is a list of fields; the store is the list of rows in
file order.  `display_table` numbers rows from 1 by raw position and shows
only the well-formed (4-field) ones. -/

/-- A CSV row of the record store. -/
abbrev Row := List String

/-- Python `enumerate(rows, start=k)`. -/
def numberRows (k : ℕ) : List Row → List (ℕ × Row)
  | [] => []
  | r :: rs => (k, r) :: numberRows (k + 1) rs

/-- The (ID, row) pairs shown by `display_table`: rows are numbered by raw
position starting at 1, and only rows with exactly 4 fields are displayed. -/
def display_rows (rows : List Row) : List (ℕ × Row) :=
  (numberRows 1 rows).filter (fun p => p.2.length = 4)

/-- The three field assignments of `edit_expense`:
`rows[idx][1] = category; rows[idx][2] = description; rows[idx][3] = amount`. -/
def updateRow (r : Row) (c d a : String) : Row :=
  ((r.set 1 c).set 2 d).set 3 a

/-- In-place update of the row at 0-based index `i`. -/
def updateAt (rows : List Row) (i : ℕ) (c d a : String) : List Row :=
  match rows, i with
  | [], _ => []
  | r :: rs, 0 => updateRow r c d a :: rs
  | r :: rs, j + 1 => r :: updateAt rs j c d a

/-- `edit_expense` at the commit point: the caller has supplied a 1-based ID
`ordinal`, the new category, description, and the already-formatted amount
string.  Reading `rows[idx][1]` / the prompt defaults `rows[idx][2]`,
`rows[idx][3]` raises `IndexError` on a row with fewer than 4 fields, in
which case nothing is written back. -/
def edit_expense (rows : List Row) (ordinal : ℕ) (c d a : String) :
    Except String (List Row) :=
  if rows.isEmpty then .error "No records found to edit."
  else if 1 ≤ ordinal ∧ ordinal ≤ rows.length then
    if (rows.getD (ordinal - 1) []).length < 4 then .error "IndexError"
    else .ok (updateAt rows (ordinal - 1) c d a)
  else .error "Invalid ID"

/-- `delete_expense` on a list of numeric IDs (the branch below `ALL`):
`ids = sorted({int(i) - 1 for i in choice.split(",")})`, the in-bounds ones
are kept, and the rows are popped in descending index order. -/
def delete_many (rows : List Row) (ords : List ℤ) : Except String (List Row) :=
  let ids := List.insertionSort (· ≤ ·) (ords.map (fun o => o - 1)).dedup
  let valid := ids.filter (fun i => 0 ≤ i ∧ i < (rows.length : ℤ))
  if valid.isEmpty then .error "No valid IDs provided"
  else .ok (valid.reverse.foldl (fun rs i => rs.eraseIdx i.toNat) rows)

/-- Specification-side description of a batch delete: keep the entries whose
0-based position (counted from `k`) satisfies `p`. -/
def keepWhere (p : ℕ → Bool) : List Row → ℕ → List Row
  | [], _ => []
  | r :: rs, k => if p k then r :: keepWhere p rs (k + 1) else keepWhere p rs (k + 1)

example :
    delete_many [["a"], ["b"], ["c"], ["d"], ["e"]] [2, 5, 99] =
      .ok [["a"], ["c"], ["d"]] := by decide
example :
    delete_many [["a"], ["b"], ["c"], ["d"], ["e"]] [0, 99, -3] =
      .error "No valid IDs provided" := by decide
example : edit_expense [["x", "c0", "d0", "a0"]] 1 "c" "d" "a" =
    .ok [["x", "c", "d", "a"]] := by decide
example : edit_expense [["x", "c0", "d0", "a0"]] 2 "c" "d" "a" =
    .error "Invalid ID" := by decide
example : display_rows [["w", "x", "y", "z"], ["bad"], ["p", "q", "r", "s"]] =
    [(1, ["w", "x", "y", "z"]), (3, ["p", "q", "r", "s"])] := by decide

/-! ## The category registry -/

/-- The vocabulary the category file is seeded with. -/
def defaultCategories : List String :=
  ["Food", "Transport", "Travel", "Utilities", "Entertainment", "Shopping",
   "Medical", "Other"]

/-- `is_valid_category`: `re.search(r"[A-Za-z]", cat)` — at least one ASCII
letter. -/
def is_valid_category (s : String) : Bool :=
  s.toList.any (fun c => c.isAlpha)

/-- `save_category`: append one name to the category file. -/
def save_category (cats : List String) (c : String) : List String := cats ++ [c]

/-- The registry effect of `add_expense` when the user takes the
"Other / Add New Category" path with name `c`: the name is validated and then
saved unconditionally. -/
def add_expense_new_category (cats : List String) (c : String) : List String :=
  if is_valid_category c then save_category cats c else cats

/-- The registry effect of `edit_expense` when the user takes the
"Other / Add New Category" path with name `c`: saved only
`if new_cat not in categories`. -/
def edit_expense_new_category (cats : List String) (c : String) : List String :=
  if is_valid_category c then
    if c ∈ cats then cats else save_category cats c
  else cats

/-- One registry-growing user operation. -/
inductive CatOp where
  | addNew (c : String)
  | editNew (c : String)
deriving DecidableEq, Repr

/-- Apply one operation to the vocabulary. -/
def applyCatOp (cats : List String) : CatOp → List String
  | .addNew c => add_expense_new_category cats c
  | .editNew c => edit_expense_new_category cats c

/-- Apply a sequence of operations to the vocabulary. -/
def applyCatOps (cats : List String) (ops : List CatOp) : List String :=
  ops.foldl applyCatOp cats

example : applyCatOps defaultCategories [.addNew "Food"] =
    defaultCategories ++ ["Food"] := by decide
example : ¬ (applyCatOps defaultCategories [.addNew "Food"]).Nodup := by decide
example : applyCatOps defaultCategories [.editNew "Food"] = defaultCategories := by
  decide

/-! ## Backup and recovery -/

/-- The persisted state seen by `backup_data` / `recover_data`: the live
record store and the archive directory (filename, archived rows). -/
structure AppState where
  data : List Row
  backups : List (String × List Row)
deriving DecidableEq, Repr

/-- `backup_data` with the current timestamp string `ts`
(`YYYYMMDD_HHMMSS`): refuses when there are no records, otherwise copies the
record file to a new `backup_<ts>.csv` archive. -/
def backup_data (st : AppState) (ts : String) : Except String AppState :=
  if st.data.isEmpty then
    .error "Cannot create backup: There are no records to save."
  else
    .ok { st with backups := st.backups ++ [("backup_" ++ ts ++ ".csv", st.data)] }

/-- The recovery mode chosen at the prompt. -/
inductive RecoverMode where
  | overwrite
  | append
  | cancel
deriving DecidableEq, Repr

/-- The archives as listed by `recover_data`: glob results sorted by
filename. -/
def listBackups (st : AppState) : List (String × List Row) :=
  List.insertionSort (fun a b => a.1 ≤ b.1) st.backups

/-- `recover_data` with the chosen 1-based backup ID and mode. -/
def recover_data (st : AppState) (choice : ℕ) (mode : RecoverMode) :
    Except String AppState :=
  let backups := listBackups st
  if backups.isEmpty then .error "No backups found"
  else if 1 ≤ choice ∧ choice ≤ backups.length then
    match mode with
    | .cancel => .ok st
    | .overwrite => .ok { st with data := (backups.getD (choice - 1) ("", [])).2 }
    | .append => .ok { st with data := st.data ++ (backups.getD (choice - 1) ("", [])).2 }
  else .error "Error: Backup ID does not exist."

example :
    backup_data { data := [], backups := [] } "20240101_000000" =
      .error "Cannot create backup: There are no records to save." := by decide
example :
    backup_data { data := [["r"]], backups := [] } "20240101_000000" =
      .ok { data := [["r"]], backups := [("backup_20240101_000000.csv", [["r"]])] } := by
  decide
example :
    recover_data { data := [["a"]], backups := [("backup_1.csv", [["b"], ["c"]])] } 1
        .append =
      .ok { data := [["a"], ["b"], ["c"]],
            backups := [("backup_1.csv", [["b"], ["c"]])] } := by decide
example :
    recover_data { data := [["a"]], backups := [("backup_1.csv", [["b"]])] } 2 .append =
      .error "Error: Backup ID does not exist." := by decide

/-! ## Lemmas: digit strings and their values -/

theorem natCharsF_congr :
    ∀ f₁ f₂ n, n < f₁ → n < f₂ → natCharsF f₁ n = natCharsF f₂ n := by
  intro f₁
  induction f₁ with
  | zero => intro f₂ n h; omega
  | succ f ih =>
    intro f₂ n h1 h2
    cases f₂ with
    | zero => omega
    | succ f₂ =>
      simp only [natCharsF]
      by_cases hn : n < 10
      · simp [hn]
      · have hdiv : n / 10 < n := Nat.div_lt_self (by omega) (by omega)
        simp only [hn, if_false]
        rw [ih f₂ (n / 10) (by omega) (by omega)]

theorem natChars_eq (n : ℕ) :
    natChars n =
      if n < 10 then [Nat.digitChar n]
      else natChars (n / 10) ++ [Nat.digitChar (n % 10)] := by
  by_cases hn : n < 10
  · simp [natChars, natCharsF, hn]
  · have hdiv : n / 10 < n := Nat.div_lt_self (by omega) (by omega)
    have h1 : natChars n = natCharsF n (n / 10) ++ [Nat.digitChar (n % 10)] := by
      simp [natChars, natCharsF, hn]
    have h2 : natCharsF n (n / 10) = natChars (n / 10) :=
      natCharsF_congr n (n / 10 + 1) (n / 10) (by omega) (by omega)
    rw [h1, h2]
    simp [hn]

theorem commaGroupF_congr :
    ∀ f₁ f₂ m, m < f₁ → m < f₂ → commaGroupF f₁ m = commaGroupF f₂ m := by
  intro f₁
  induction f₁ with
  | zero => intro f₂ m h; omega
  | succ f ih =>
    intro f₂ m h1 h2
    cases f₂ with
    | zero => omega
    | succ f₂ =>
      simp only [commaGroupF]
      by_cases hm : m < 1000
      · simp [hm]
      · have hdiv : m / 1000 < m := Nat.div_lt_self (by omega) (by omega)
        simp only [hm, if_false]
        rw [ih f₂ (m / 1000) (by omega) (by omega)]

theorem commaGroup_eq (m : ℕ) :
    commaGroup m =
      if m < 1000 then natChars m
      else commaGroup (m / 1000) ++ ',' :: pad3 (m % 1000) := by
  by_cases hm : m < 1000
  · simp [commaGroup, commaGroupF, hm]
  · have hdiv : m / 1000 < m := Nat.div_lt_self (by omega) (by omega)
    have h1 : commaGroup m = commaGroupF m (m / 1000) ++ ',' :: pad3 (m % 1000) := by
      simp [commaGroup, commaGroupF, hm]
    have h2 : commaGroupF m (m / 1000) = commaGroup (m / 1000) :=
      commaGroupF_congr m (m / 1000 + 1) (m / 1000) (by omega) (by omega)
    rw [h1, h2]
    simp [hm]

theorem digitChar_isDigit {k : ℕ} (hk : k < 10) :
    (Nat.digitChar k).isDigit = true := by
  interval_cases k <;> decide

theorem digitChar_val {k : ℕ} (hk : k < 10) : (Nat.digitChar k).toNat - 48 = k := by
  interval_cases k <;> decide

/-- A digit character differs from every non-digit character. -/
theorem isDigit_ne {c : Char} (h : c.isDigit = true) (d : Char)
    (hd : d.isDigit = false) : c ≠ d := by
  intro e; rw [e, hd] at h; cases h

theorem isDigit_not_ws {c : Char} (h : c.isDigit = true) :
    c.isWhitespace = false := by
  cases hw : c.isWhitespace
  · rfl
  · exfalso
    simp only [Char.isWhitespace, Bool.or_eq_true, decide_eq_true_eq] at hw
    rcases hw with ((e | e) | e) | e <;> (subst e; exact absurd h (by decide))

theorem natVal_foldl (l : List Char) :
    ∀ acc, l.foldl (fun a c => a * 10 + (c.toNat - 48)) acc =
      acc * 10 ^ l.length + natVal l := by
  induction l with
  | nil => intro acc; simp [natVal]
  | cons c l ih =>
    intro acc
    simp only [List.foldl_cons, natVal, List.length_cons]
    rw [ih (acc * 10 + (c.toNat - 48)), ih (0 * 10 + (c.toNat - 48))]
    ring

theorem natVal_append (a b : List Char) :
    natVal (a ++ b) = natVal a * 10 ^ b.length + natVal b := by
  have h : natVal (a ++ b) = b.foldl (fun a c => a * 10 + (c.toNat - 48)) (natVal a) := by
    simp [natVal, List.foldl_append]
  rw [h, natVal_foldl b (natVal a)]

theorem natVal_singleton (c : Char) : natVal [c] = c.toNat - 48 := by
  simp [natVal]

theorem natVal_natChars (n : ℕ) : natVal (natChars n) = n := by
  induction n using Nat.strong_induction_on with
  | _ n ih =>
    rw [natChars_eq]
    by_cases hn : n < 10
    · simp only [hn, if_true]
      rw [natVal_singleton, digitChar_val hn]
    · have hdiv : n / 10 < n := Nat.div_lt_self (by omega) (by omega)
      simp only [hn, if_false]
      rw [natVal_append, ih (n / 10) hdiv, natVal_singleton,
        digitChar_val (Nat.mod_lt n (by omega))]
      simp only [List.length_singleton, pow_one]
      omega

theorem natVal_pad3 {r : ℕ} (hr : r < 1000) : natVal (pad3 r) = r := by
  have h1 : r / 100 < 10 := by omega
  have h2 : r / 10 % 10 < 10 := Nat.mod_lt _ (by omega)
  have h3 : r % 10 < 10 := Nat.mod_lt _ (by omega)
  simp only [pad3, natVal, List.foldl_cons, List.foldl_nil, Nat.zero_mul, Nat.zero_add]
  rw [digitChar_val h1, digitChar_val h2, digitChar_val h3]
  omega

theorem natVal_pad2 {r : ℕ} (hr : r < 100) : natVal (pad2 r) = r := by
  have h1 : r / 10 < 10 := by omega
  have h3 : r % 10 < 10 := Nat.mod_lt _ (by omega)
  simp only [pad2, natVal, List.foldl_cons, List.foldl_nil, Nat.zero_mul, Nat.zero_add]
  rw [digitChar_val h1, digitChar_val h3]
  omega

theorem natChars_all_digit (n : ℕ) : ∀ c ∈ natChars n, c.isDigit = true := by
  induction n using Nat.strong_induction_on with
  | _ n ih =>
    rw [natChars_eq]
    by_cases hn : n < 10
    · simp only [hn, if_true, List.mem_singleton]
      rintro c rfl
      exact digitChar_isDigit hn
    · have hdiv : n / 10 < n := Nat.div_lt_self (by omega) (by omega)
      simp only [hn, if_false, List.mem_append, List.mem_singleton]
      rintro c (hc | rfl)
      · exact ih (n / 10) hdiv c hc
      · exact digitChar_isDigit (Nat.mod_lt n (by omega))

theorem natChars_head (n : ℕ) :
    ∃ a l, natChars n = a :: l ∧ a.isDigit = true := by
  induction n using Nat.strong_induction_on with
  | _ n ih =>
    rw [natChars_eq]
    by_cases hn : n < 10
    · exact ⟨Nat.digitChar n, [], by simp [hn], digitChar_isDigit hn⟩
    · have hdiv : n / 10 < n := Nat.div_lt_self (by omega) (by omega)
      obtain ⟨a, l, he, ha⟩ := ih (n / 10) hdiv
      exact ⟨a, l ++ [Nat.digitChar (n % 10)], by simp [hn, he], ha⟩

theorem pad3_all_digit {r : ℕ} (hr : r < 1000) : ∀ c ∈ pad3 r, c.isDigit = true := by
  have h1 : r / 100 < 10 := by omega
  have h2 : r / 10 % 10 < 10 := Nat.mod_lt _ (by omega)
  have h3 : r % 10 < 10 := Nat.mod_lt _ (by omega)
  simp only [pad3, List.mem_cons, List.mem_singleton, List.not_mem_nil]
  rintro c (rfl | rfl | rfl | h)
  · exact digitChar_isDigit h1
  · exact digitChar_isDigit h2
  · exact digitChar_isDigit h3
  · cases h

theorem pad2_all_digit {r : ℕ} (hr : r < 100) : ∀ c ∈ pad2 r, c.isDigit = true := by
  have h1 : r / 10 < 10 := by omega
  have h3 : r % 10 < 10 := Nat.mod_lt _ (by omega)
  simp only [pad2, List.mem_cons, List.mem_singleton, List.not_mem_nil]
  rintro c (rfl | rfl | h)
  · exact digitChar_isDigit h1
  · exact digitChar_isDigit h3
  · cases h

theorem commaGroup_chars (m : ℕ) :
    ∀ c ∈ commaGroup m, c.isDigit = true ∨ c = ',' := by
  induction m using Nat.strong_induction_on with
  | _ m ih =>
    rw [commaGroup_eq]
    by_cases hm : m < 1000
    · simp only [hm, if_true]
      exact fun c hc => Or.inl (natChars_all_digit m c hc)
    · have hdiv : m / 1000 < m := Nat.div_lt_self (by omega) (by omega)
      simp only [hm, if_false, List.mem_append, List.mem_cons]
      rintro c (hc | rfl | hc)
      · exact ih (m / 1000) hdiv c hc
      · exact Or.inr rfl
      · exact Or.inl (pad3_all_digit (Nat.mod_lt _ (by omega)) c hc)

theorem commaGroup_head (m : ℕ) :
    ∃ a l, commaGroup m = a :: l ∧ a.isDigit = true := by
  induction m using Nat.strong_induction_on with
  | _ m ih =>
    rw [commaGroup_eq]
    by_cases hm : m < 1000
    · simpa [hm] using natChars_head m
    · have hdiv : m / 1000 < m := Nat.div_lt_self (by omega) (by omega)
      obtain ⟨a, l, he, ha⟩ := ih (m / 1000) hdiv
      exact ⟨a, l ++ ',' :: pad3 (m % 1000), by simp [hm, he], ha⟩

theorem filter_eq_self_of_digits {p : Char → Bool} {l : List Char}
    (h : ∀ c ∈ l, c.isDigit = true) (hp : ∀ c, c.isDigit = true → p c = true) :
    l.filter p = l :=
  List.filter_eq_self.mpr fun c hc => hp c (h c hc)

theorem commaGroup_filter_digits (m : ℕ) :
    ∀ c ∈ (commaGroup m).filter (fun c => c != ','), c.isDigit = true := by
  intro c hc
  obtain ⟨hmem, hne⟩ := List.mem_filter.mp hc
  rcases commaGroup_chars m c hmem with hd | rfl
  · exact hd
  · simp at hne

theorem natVal_commaGroup_filter (m : ℕ) :
    natVal ((commaGroup m).filter (fun c => c != ',')) = m := by
  induction m using Nat.strong_induction_on with
  | _ m ih =>
    rw [commaGroup_eq]
    by_cases hm : m < 1000
    · simp only [hm, if_true]
      rw [filter_eq_self_of_digits (natChars_all_digit m)
        (fun c hc => by simp [bne_iff_ne]; exact isDigit_ne hc ',' (by decide))]
      exact natVal_natChars m
    · have hdiv : m / 1000 < m := Nat.div_lt_self (by omega) (by omega)
      have hr : m % 1000 < 1000 := Nat.mod_lt _ (by omega)
      simp only [hm, if_false, List.filter_append, List.filter_cons]
      have hcomma : ((',' : Char) != ',') = false := by decide
      rw [hcomma]
      simp only [Bool.false_eq_true, if_false]
      rw [filter_eq_self_of_digits (pad3_all_digit hr)
        (fun c hc => by simp [bne_iff_ne]; exact isDigit_ne hc ',' (by decide))]
      rw [natVal_append, ih (m / 1000) hdiv, natVal_pad3 hr]
      have hlen : (pad3 (m % 1000)).length = 3 := rfl
      rw [hlen]
      omega

theorem dropWhile_eq_self_of_all {p : Char → Bool} {l : List Char}
    (h : ∀ c ∈ l, p c = false) : l.dropWhile p = l := by
  cases l with
  | nil => rfl
  | cons c l => simp [List.dropWhile_cons, h c (List.mem_cons_self c l)]

theorem strip_eq_self {l : List Char} (h : ∀ c ∈ l, c.isWhitespace = false) :
    strip l = l := by
  unfold strip
  rw [dropWhile_eq_self_of_all h,
    dropWhile_eq_self_of_all (fun c hc => h c (List.mem_reverse.mp hc)),
    List.reverse_reverse]

/-- Any string matched by the comma-typo regex consists of digits and a
comma only. -/
theorem matchCommaTypo_chars {l : List Char} (h : matchCommaTypo l = true) :
    ∀ c ∈ l, c.isDigit = true ∨ c = ',' := by
  intro c hc
  simp only [matchCommaTypo, Bool.and_eq_true] at h
  obtain ⟨hds, hrest⟩ := h
  rw [← List.takeWhile_append_dropWhile (fun c => c.isDigit) l] at hc
  rcases List.mem_append.mp hc with hc | hc
  · exact Or.inl (List.mem_takeWhile_imp hc)
  · split at hrest
    next r2 heq =>
      rw [heq] at hc
      rcases List.mem_cons.mp hc with rfl | hc
      · exact Or.inr rfl
      · refine Or.inl ?_
        simp only [Bool.and_eq_true, List.all_eq_true] at hrest
        exact hrest.2 c hc
    next => cases hrest

theorem takeWhile_append_cons {p : Char → Bool} :
    ∀ (l1 : List Char) (c : Char) (l2 : List Char),
      (∀ x ∈ l1, p x = true) → p c = false →
      (l1 ++ c :: l2).takeWhile p = l1 := by
  intro l1
  induction l1 with
  | nil => intro c l2 _ hc; simp [List.takeWhile_cons, hc]
  | cons a l1 ih =>
    intro c l2 h hc
    have ha := h a (List.mem_cons_self a l1)
    simp only [List.cons_append, List.takeWhile_cons, ha, if_true]
    rw [ih c l2 (fun x hx => h x (List.mem_cons_of_mem a hx)) hc]

theorem dropWhile_append_cons {p : Char → Bool} :
    ∀ (l1 : List Char) (c : Char) (l2 : List Char),
      (∀ x ∈ l1, p x = true) → p c = false →
      (l1 ++ c :: l2).dropWhile p = c :: l2 := by
  intro l1
  induction l1 with
  | nil => intro c l2 _ hc; simp [List.dropWhile_cons, hc]
  | cons a l1 ih =>
    intro c l2 h hc
    have ha := h a (List.mem_cons_self a l1)
    simp only [List.cons_append, List.dropWhile_cons, ha, if_true]
    exact ih c l2 (fun x hx => h x (List.mem_cons_of_mem a hx)) hc

theorem natChars_small {m : ℕ} (hm : m < 1000) :
    (∃ a, natChars m = [a] ∧ a.isDigit = true) ∨
    (∃ a b, natChars m = [a, b] ∧ a.isDigit = true ∧ b.isDigit = true) ∨
    (∃ a b c, natChars m = [a, b, c] ∧
      a.isDigit = true ∧ b.isDigit = true ∧ c.isDigit = true) := by
  by_cases h1 : m < 10
  · refine Or.inl ⟨Nat.digitChar m, ?_, digitChar_isDigit h1⟩
    rw [natChars_eq]; simp [h1]
  · by_cases h2 : m < 100
    · refine Or.inr (Or.inl ⟨Nat.digitChar (m / 10), Nat.digitChar (m % 10), ?_,
        digitChar_isDigit (by omega), digitChar_isDigit (Nat.mod_lt _ (by omega))⟩)
      have e1 : natChars m = natChars (m / 10) ++ [Nat.digitChar (m % 10)] := by
        rw [natChars_eq]; simp [h1]
      have e2 : natChars (m / 10) = [Nat.digitChar (m / 10)] := by
        rw [natChars_eq]; simp [show m / 10 < 10 by omega]
      rw [e1, e2]; rfl
    · refine Or.inr (Or.inr ⟨Nat.digitChar (m / 10 / 10), Nat.digitChar (m / 10 % 10),
        Nat.digitChar (m % 10), ?_, digitChar_isDigit (by omega),
        digitChar_isDigit (Nat.mod_lt _ (by omega)),
        digitChar_isDigit (Nat.mod_lt _ (by omega))⟩)
      have e1 : natChars m = natChars (m / 10) ++ [Nat.digitChar (m % 10)] := by
        rw [natChars_eq]; simp [h1]
      have e2 : natChars (m / 10) = natChars (m / 10 / 10) ++ [Nat.digitChar (m / 10 % 10)] := by
        rw [natChars_eq]; simp [show ¬ m / 10 < 10 by omega]
      have e3 : natChars (m / 10 / 10) = [Nat.digitChar (m / 10 / 10)] := by
        rw [natChars_eq]; simp [show m / 10 / 10 < 10 by omega]
      rw [e1, e2, e3]; rfl

theorem matchRest_group {a : ℕ} (ha : a < 1000) (rest : List Char) :
    matchRest (',' :: (pad3 a ++ rest)) = matchRest rest := by
  have h1 : (Nat.digitChar (a / 100)).isDigit = true := digitChar_isDigit (by omega)
  have h2 : (Nat.digitChar (a / 10 % 10)).isDigit = true :=
    digitChar_isDigit (Nat.mod_lt _ (by omega))
  have h3 : (Nat.digitChar (a % 10)).isDigit = true :=
    digitChar_isDigit (Nat.mod_lt _ (by omega))
  simp only [pad3, List.cons_append, List.nil_append]
  simp [matchRest, h1, h2, h3]

theorem matchRest_dot (ds : List Char) :
    matchRest ('.' :: ds) = (!ds.isEmpty && ds.all (fun c => c.isDigit)) := by
  simp [matchRest]

theorem matchNumFormat_lead {m : ℕ} (hm : m < 1000) (rest : List Char)
    (hrest : rest = [] ∨ ∃ c cs, rest = c :: cs ∧ c.isDigit = false) :
    matchNumFormat (natChars m ++ rest) = matchRest rest := by
  rcases natChars_small hm with ⟨a, he, ha⟩ | ⟨a, b, he, ha, hb⟩ | ⟨a, b, c, he, ha, hb, hc⟩ <;>
    rw [he] <;>
    rcases hrest with rfl | ⟨x, xs, rfl, hx⟩ <;>
    simp [matchNumFormat, matchRest, *]

theorem matchNumFormat_commaGroup (m : ℕ) (rest : List Char)
    (hrest : rest = [] ∨ ∃ c cs, rest = c :: cs ∧ c.isDigit = false) :
    matchNumFormat (commaGroup m ++ rest) = matchRest rest := by
  induction m using Nat.strong_induction_on generalizing rest with
  | _ m ih =>
    rw [commaGroup_eq]
    by_cases hm : m < 1000
    · simp only [hm, if_true]
      exact matchNumFormat_lead hm rest hrest
    · have hdiv : m / 1000 < m := Nat.div_lt_self (by omega) (by omega)
      have hr : m % 1000 < 1000 := Nat.mod_lt _ (by omega)
      simp only [hm, if_false, List.append_assoc, List.cons_append]
      rw [ih (m / 1000) hdiv (',' :: (pad3 (m % 1000) ++ rest))
        (Or.inr ⟨',', pad3 (m % 1000) ++ rest, rfl, by decide⟩)]
      exact matchRest_group hr rest

theorem bne_comma_of_digit {c : Char} (h : c.isDigit = true) : (c != ',') = true := by
  simp only [bne_iff_ne, ne_eq]
  exact isDigit_ne h ',' (by decide)

theorem bne_dot_of_digit {c : Char} (h : c.isDigit = true) : (c != '.') = true := by
  simp only [bne_iff_ne, ne_eq]
  exact isDigit_ne h '.' (by decide)

theorem parseFloat_format (n : ℕ) :
    parseFloat ((commaGroup (n / 100) ++ '.' :: pad2 (n % 100)).filter (fun c => c != ','))
      = some (mkRat n 100) := by
  have hr2 : n % 100 < 100 := Nat.mod_lt _ (by omega)
  have hAdig := commaGroup_filter_digits (n / 100)
  have hPdig := pad2_all_digit hr2
  have hfilter :
      (commaGroup (n / 100) ++ '.' :: pad2 (n % 100)).filter (fun c => c != ',') =
        (commaGroup (n / 100)).filter (fun c => c != ',') ++ '.' :: pad2 (n % 100) := by
    rw [List.filter_append]
    congr 1
    rw [List.filter_cons]
    have hd : (('.' : Char) != ',') = true := by decide
    rw [hd]
    simp only [if_true]
    congr 1
    exact filter_eq_self_of_digits hPdig (fun c hc => bne_comma_of_digit hc)
  rw [hfilter]
  set A := (commaGroup (n / 100)).filter (fun c => c != ',') with hA
  set P := pad2 (n % 100) with hP
  have hall : (A ++ '.' :: P).all (fun c => c.isDigit || c == '.') = true := by
    rw [List.all_eq_true]
    intro c hc
    rcases List.mem_append.mp hc with hc | hc
    · simp [hAdig c hc]
    · rcases List.mem_cons.mp hc with rfl | hc
      · simp
      · simp [hPdig c hc]
  have hnotA : ('.' : Char) ∉ A := fun hmem => absurd (hAdig '.' hmem) (by decide)
  have hnotP : ('.' : Char) ∉ P := fun hmem => absurd (hPdig '.' hmem) (by decide)
  have hcount : (A ++ '.' :: P).count '.' ≤ 1 := by
    rw [List.count_append, List.count_eq_zero.mpr hnotA]
    simp [List.count_cons, List.count_eq_zero.mpr hnotP]
  have hany : (A ++ '.' :: P).any (fun c => c.isDigit) = true := by
    rw [List.any_eq_true]
    refine ⟨Nat.digitChar (n % 100 / 10), ?_, digitChar_isDigit (by omega)⟩
    exact List.mem_append_right _ (List.mem_cons_of_mem _ (by simp [hP, pad2]))
  have htake : (A ++ '.' :: P).takeWhile (fun c => c != '.') = A :=
    takeWhile_append_cons A '.' P (fun x hx => bne_dot_of_digit (hAdig x hx)) (by decide)
  have hdrop : (A ++ '.' :: P).dropWhile (fun c => c != '.') = '.' :: P :=
    dropWhile_append_cons A '.' P (fun x hx => bne_dot_of_digit (hAdig x hx)) (by decide)
  have hlenP : P.length = 2 := rfl
  unfold parseFloat
  rw [if_pos ⟨hall, hcount, hany⟩]
  rw [htake, hdrop]
  simp only [List.drop_succ_cons, List.drop_zero, hlenP]
  rw [hA, natVal_commaGroup_filter, hP, natVal_pad2 hr2]
  have e2 : (10 : ℤ) ^ 2 = 100 := by norm_num
  have e3 : (10 : ℕ) ^ 2 = 100 := by norm_num
  rw [e2, e3]
  have h1 : ((n / 100 : ℕ) : ℤ) * 100 + ((n % 100 : ℕ) : ℤ) = (n : ℤ) := by omega
  rw [h1]

theorem validate_amount_format {n : ℕ} (hn : 0 < n) :
    validate_amount (format_amount n) = .ok (mkRat n 100) := by
  have hl : (format_amount n).toList = commaGroup (n / 100) ++ '.' :: pad2 (n % 100) := rfl
  have hr2 : n % 100 < 100 := Nat.mod_lt _ (by omega)
  set L := commaGroup (n / 100) ++ '.' :: pad2 (n % 100) with hL
  have hchars : ∀ c ∈ L, c.isDigit = true ∨ c = ',' ∨ c = '.' := by
    intro c hc
    rcases List.mem_append.mp hc with hc | hc
    · rcases commaGroup_chars (n / 100) c hc with h | h
      · exact Or.inl h
      · exact Or.inr (Or.inl h)
    · rcases List.mem_cons.mp hc with rfl | hc
      · exact Or.inr (Or.inr rfl)
      · exact Or.inl (pad2_all_digit hr2 c hc)
  have hnws : ∀ c ∈ L, c.isWhitespace = false := by
    intro c hc
    rcases hchars c hc with h | rfl | rfl
    · exact isDigit_not_ws h
    · decide
    · decide
  have hstrip : strip L = L := strip_eq_self hnws
  obtain ⟨a, t, hLcons, hadig⟩ : ∃ a t, L = a :: t ∧ a.isDigit = true := by
    obtain ⟨a, t, he, ha⟩ := commaGroup_head (n / 100)
    exact ⟨a, t ++ '.' :: pad2 (n % 100), by rw [hL, he]; rfl, ha⟩
  have hhead : ¬ L.head? = some '-' := by
    rw [hLcons]
    simp only [List.head?_cons, Option.some_inj]
    exact isDigit_ne hadig '-' (by decide)
  have hdot : '.' ∈ L := List.mem_append_right _ (List.mem_cons_self _ _)
  have htypo : matchCommaTypo L = false := by
    cases htc : matchCommaTypo L
    · rfl
    · exfalso
      rcases matchCommaTypo_chars htc '.' hdot with h | h
      · exact absurd h (by decide)
      · exact absurd h (by decide)
  have hclean : L.filter (fun c => c.isDigit || c == '.' || c == ',') = L :=
    List.filter_eq_self.mpr fun c hc => by
      rcases hchars c hc with h | rfl | rfl <;> simp [*]
  have hmnf : matchNumFormat L = true := by
    rw [hL, matchNumFormat_commaGroup (n / 100) ('.' :: pad2 (n % 100))
      (Or.inr ⟨'.', pad2 (n % 100), rfl, by decide⟩), matchRest_dot]
    simp [pad2, digitChar_isDigit (show n % 100 / 10 < 10 by omega),
      digitChar_isDigit (show n % 100 % 10 < 10 by omega)]
  have hpf : parseFloat (L.filter (fun c => c != ',')) = some (mkRat n 100) := by
    rw [hL]; exact parseFloat_format n
  have hpos : ¬ (mkRat (n : ℤ) 100 ≤ 0) := by
    rw [Rat.mkRat_eq_div]
    push_neg
    have : (0 : ℚ) < (n : ℚ) := by exact_mod_cast hn
    positivity
  show validateChars (format_amount n).toList = _
  rw [hl]
  unfold validateChars
  rw [hstrip]
  rw [if_neg hhead]
  rw [htypo]
  simp only [Bool.false_eq_true, if_false]
  rw [hclean]
  rw [if_neg (by rw [hmnf]; simp)]
  rw [hpf]
  simp only []
  rw [if_neg hpos]

/-- C2: for every positive amount with at most two fraction digits
(represented by its cent count `n`), parsing the display-formatted string the
store persists returns the amount again: `parse (format x) = x`. -/
theorem C2_parse_format_roundtrip (n : ℕ) (hn : 0 < n) :
    validate_amount (format_amount n) = .ok ((n : ℚ) / 100) := by
  rw [validate_amount_format hn]
  congr 1
  rw [Rat.mkRat_eq_div]
  norm_num

/-- C2 witness: the round-trip at the concrete amount `1234.56`. -/
theorem C2_parse_format_roundtrip_witness :
    0 < 123456 ∧ validate_amount (format_amount 123456) = .ok ((123456 : ℚ) / 100) :=
  ⟨by norm_num, C2_parse_format_roundtrip 123456 (by norm_num)⟩

/-! ## Lemmas: batch deletion -/

theorem keepWhere_congr {p q : ℕ → Bool} :
    ∀ (l : List Row) (k : ℕ), (∀ j, k ≤ j → j < k + l.length → p j = q j) →
      keepWhere p l k = keepWhere q l k := by
  intro l
  induction l with
  | nil => intro k _; rfl
  | cons r rs ih =>
    intro k h
    have hk : p k = q k := h k le_rfl (by simp)
    simp only [keepWhere, hk]
    rw [ih (k + 1) (fun j hj1 hj2 => h j (by omega) (by simp at hj2 ⊢; omega))]

theorem keepWhere_all_true {p : ℕ → Bool} :
    ∀ (l : List Row) (k : ℕ), (∀ j, k ≤ j → p j = true) → keepWhere p l k = l := by
  intro l
  induction l with
  | nil => intro k _; rfl
  | cons r rs ih =>
    intro k h
    simp only [keepWhere, h k le_rfl, if_true]
    rw [ih (k + 1) (fun j hj => h j (by omega))]

theorem keepWhere_take_drop {p : ℕ → Bool} :
    ∀ (n : ℕ) (l : List Row) (k : ℕ), n ≤ l.length → (∀ j, j < n → p (k + j) = true) →
      keepWhere p l k = l.take n ++ keepWhere p (l.drop n) (k + n) := by
  intro n
  induction n with
  | zero => intro l k _ _; simp
  | succ n ih =>
    intro l k hn hp
    cases l with
    | nil => simp at hn
    | cons r rs =>
      have hpk : p k = true := by simpa using hp 0 (by omega)
      simp only [keepWhere, hpk, if_true, List.take_succ_cons, List.drop_succ_cons,
        List.cons_append]
      rw [ih rs (k + 1) (by simpa using hn)
        (fun j hj => by
          have := hp (j + 1) (by omega)
          rwa [show k + (j + 1) = k + 1 + j by omega] at this)]
      rw [show k + 1 + n = k + (n + 1) by omega]

theorem keepWhere_sublist {p : ℕ → Bool} :
    ∀ (l : List Row) (k : ℕ), (keepWhere p l k).Sublist l := by
  intro l
  induction l with
  | nil => intro k; simp [keepWhere]
  | cons r rs ih =>
    intro k
    simp only [keepWhere]
    by_cases h : p k = true
    · simp only [h, if_true]
      exact (ih (k + 1)).cons₂ r
    · simp only [h, if_false]
      exact (ih (k + 1)).cons r

theorem foldr_eraseIdx_eq_keepWhere :
    ∀ (ds : List ℕ) (rows : List Row), ds.Pairwise (· < ·) →
      (∀ d ∈ ds, d < rows.length) →
      ds.foldr (fun i rs => rs.eraseIdx i) rows
        = keepWhere (fun k => !decide (k ∈ ds)) rows 0 := by
  intro ds
  induction ds with
  | nil =>
    intro rows _ _
    simp only [List.foldr_nil]
    rw [keepWhere_all_true rows 0 (fun j _ => by simp)]
  | cons d ds ih =>
    intro rows hpw hbnd
    have hd : d < rows.length := hbnd d (List.mem_cons_self d ds)
    have hds : ∀ x ∈ ds, d < x := (List.pairwise_cons.mp hpw).1
    simp only [List.foldr_cons]
    rw [ih rows (List.pairwise_cons.mp hpw).2
      (fun x hx => hbnd x (List.mem_cons_of_mem d hx))]
    rw [keepWhere_take_drop (d + 1) rows 0 (by omega)
      (fun j hj => by
        have h2 : j ∉ ds := fun hmem => absurd (hds j hmem) (by omega)
        simp [h2])]
    rw [List.eraseIdx_append_of_lt_length (by rw [List.length_take]; omega)]
    have htk : (rows.take (d + 1)).eraseIdx d = rows.take d := by
      rw [List.eraseIdx_eq_take_drop_succ, List.take_take, List.drop_take]
      simp
    rw [htk]
    rw [keepWhere_take_drop d rows 0 hd.le
      (fun j hj => by
        have h2 : j ∉ d :: ds := by
          intro hmem
          rcases List.mem_cons.mp hmem with rfl | hmem
          · omega
          · exact absurd (hds j hmem) (by omega)
        simp [h2])]
    rw [List.drop_eq_getElem_cons hd]
    simp only [Nat.zero_add, keepWhere]
    have hpd : (!decide (d ∈ d :: ds)) = false := by simp
    rw [hpd]
    simp only [Bool.false_eq_true, if_false]
    congr 1
    exact @keepWhere_congr (fun k => !decide (k ∈ ds)) (fun k => !decide (k ∈ d :: ds))
      (rows.drop (d + 1)) (d + 1)
      (fun j hj1 _ => by
        have hne : (j ∈ d :: ds) ↔ (j ∈ ds) := by
          rw [List.mem_cons]
          constructor
          · rintro (rfl | h)
            · omega
            · exact h
          · exact Or.inr
        simp [hne])

/-- The single statement the batch-delete branch satisfies: with at least one
in-range ordinal the in-bounds ordinals are removed in one pass and everything
else survives in order; with none, the error is reported. -/
theorem delete_many_spec (rows : List Row) (ords : List ℤ) :
    ((∃ o ∈ ords, 1 ≤ o ∧ o ≤ (rows.length : ℤ)) →
        delete_many rows ords =
          .ok (keepWhere (fun k => !decide (((k : ℤ) + 1) ∈ ords)) rows 0)) ∧
    (¬ (∃ o ∈ ords, 1 ≤ o ∧ o ≤ (rows.length : ℤ)) →
        delete_many rows ords = .error "No valid IDs provided") := by
  classical
  simp only [delete_many]
  set ids := List.insertionSort (· ≤ ·) (ords.map (fun o => o - 1)).dedup with hids
  set valid := ids.filter (fun i => 0 ≤ i ∧ i < (rows.length : ℤ)) with hvalid
  have hmem_ids : ∀ i : ℤ, i ∈ ids ↔ ∃ o ∈ ords, o - 1 = i := by
    intro i
    rw [hids, List.mem_insertionSort, List.mem_dedup, List.mem_map]
  have hmem_valid : ∀ i : ℤ, i ∈ valid ↔
      (∃ o ∈ ords, o - 1 = i) ∧ 0 ≤ i ∧ i < (rows.length : ℤ) := by
    intro i
    rw [hvalid, List.mem_filter, hmem_ids]
    simp
  have hexists : valid ≠ [] ↔ ∃ o ∈ ords, 1 ≤ o ∧ o ≤ (rows.length : ℤ) := by
    constructor
    · intro hne
      obtain ⟨i, hi⟩ := List.exists_mem_of_ne_nil valid hne
      obtain ⟨⟨o, ho, hoi⟩, h0, hlen⟩ := (hmem_valid i).mp hi
      exact ⟨o, ho, by omega, by omega⟩
    · rintro ⟨o, ho, h1, h2⟩ hnil
      have : o - 1 ∈ valid := (hmem_valid (o - 1)).mpr ⟨⟨o, ho, rfl⟩, by omega, by omega⟩
      rw [hnil] at this
      cases this
  have hsorted : valid.Sorted (· ≤ ·) :=
    (List.sorted_insertionSort (· ≤ ·) (ords.map (fun o => o - 1)).dedup).filter _
  have hnodup : valid.Nodup :=
    ((List.perm_insertionSort (· ≤ ·) (ords.map (fun o => o - 1)).dedup).nodup_iff.mpr
      (List.nodup_dedup _)).filter _
  have hbounds : ∀ i ∈ valid, 0 ≤ i ∧ i < (rows.length : ℤ) := by
    intro i hi
    exact ((hmem_valid i).mp hi).2
  constructor
  · intro hex
    have hne : valid ≠ [] := hexists.mpr hex
    have hno : ¬ valid.isEmpty = true := by
      rw [List.isEmpty_iff]; exact hne
    rw [if_neg hno]
    have hfold :
        valid.reverse.foldl (fun rs i => rs.eraseIdx i.toNat) rows =
          (valid.map Int.toNat).foldr (fun i rs => rs.eraseIdx i) rows := by
      rw [List.foldl_reverse, List.foldr_map]
    have hlt : valid.Pairwise (· < ·) :=
      (hsorted.and hnodup).imp (fun h => lt_of_le_of_ne h.1 h.2)
    have hltN : (valid.map Int.toNat).Pairwise (· < ·) := by
      rw [List.pairwise_map]
      refine hlt.imp_of_mem ?_
      intro a b ha hb hab
      have h0a := (hbounds a ha).1
      have h0b := (hbounds b hb).1
      omega
    have hbndN : ∀ d ∈ valid.map Int.toNat, d < rows.length := by
      intro d hd
      obtain ⟨i, hi, rfl⟩ := List.mem_map.mp hd
      have := hbounds i hi
      omega
    rw [hfold, foldr_eraseIdx_eq_keepWhere (valid.map Int.toNat) rows hltN hbndN]
    congr 1
    apply keepWhere_congr rows 0
    intro j _ hj2
    simp only [Nat.zero_add] at hj2
    have hiff : j ∈ valid.map Int.toNat ↔ ((j : ℤ) + 1) ∈ ords := by
      rw [List.mem_map]
      constructor
      · rintro ⟨i, hi, rfl⟩
        obtain ⟨⟨o, ho, hoi⟩, h0, hlen⟩ := (hmem_valid i).mp hi
        have : o = (i.toNat : ℤ) + 1 := by omega
        rwa [← this]
      · intro ho
        refine ⟨(j : ℤ), (hmem_valid (j : ℤ)).mpr ⟨⟨(j : ℤ) + 1, ho, by omega⟩,
          by omega, by omega⟩, by omega⟩
    simp only [hiff]
  · intro hnex
    have hnil : valid = [] := by
      by_contra hne
      exact hnex (hexists.mp hne)
    have hyes : valid.isEmpty = true := by rw [List.isEmpty_iff]; exact hnil
    rw [if_pos hyes]

/-- Deleting the single in-bounds position `d` keeps everything else. -/
theorem keepWhere_eraseIdx {p : ℕ → Bool} (rows : List Row) (d : ℕ)
    (hd : d < rows.length) (hpd : p d = false)
    (hp : ∀ j, j ≠ d → p j = true) :
    keepWhere p rows 0 = rows.eraseIdx d := by
  rw [keepWhere_take_drop d rows 0 hd.le (fun j hj => hp (0 + j) (by omega))]
  rw [List.drop_eq_getElem_cons hd]
  simp only [Nat.zero_add, keepWhere, hpd, Bool.false_eq_true, if_false]
  rw [keepWhere_all_true _ (d + 1) (fun j hj => hp j (by omega))]
  rw [List.eraseIdx_eq_take_drop_succ]

/-! ## Lemmas: positional edit -/

theorem updateAt_length (rows : List Row) (i : ℕ) (c d a : String) :
    (updateAt rows i c d a).length = rows.length := by
  induction rows generalizing i with
  | nil => rfl
  | cons r rs ih =>
    cases i with
    | zero => rfl
    | succ j => simp only [updateAt, List.length_cons, ih j]

theorem updateAt_get?_ne (rows : List Row) (i j : ℕ) (c d a : String) (h : j ≠ i) :
    (updateAt rows i c d a).get? j = rows.get? j := by
  induction rows generalizing i j with
  | nil => rfl
  | cons r rs ih =>
    cases i with
    | zero =>
      cases j with
      | zero => exact absurd rfl h
      | succ j2 => simp [updateAt]
    | succ i2 =>
      cases j with
      | zero => simp [updateAt]
      | succ j2 =>
        simp only [updateAt, List.get?_cons_succ]
        exact ih i2 j2 (by omega)

theorem updateAt_get?_eq (rows : List Row) (i : ℕ) (c d a : String) :
    (updateAt rows i c d a).get? i = (rows.get? i).map (fun r => updateRow r c d a) := by
  induction rows generalizing i with
  | nil => rfl
  | cons r rs ih =>
    cases i with
    | zero => rfl
    | succ i2 =>
      simp only [updateAt, List.get?_cons_succ]
      exact ih i2

/-- `updateRow` on a well-formed 4-field row rewrites exactly the category,
description and amount fields and leaves the date field. -/
theorem updateRow_four (f0 f1 f2 f3 c d a : String) :
    updateRow [f0, f1, f2, f3] c d a = [f0, c, d, a] := rfl

/-! ## Lemmas: the listing -/

theorem mem_numberRows :
    ∀ (rows : List Row) (k : ℕ) (p : ℕ × Row), p ∈ numberRows k rows →
      k ≤ p.1 ∧ p.1 < k + rows.length ∧ rows.get? (p.1 - k) = some p.2 := by
  intro rows
  induction rows with
  | nil => intro k p h; cases h
  | cons r rs ih =>
    intro k p h
    rcases List.mem_cons.mp h with rfl | h
    · refine ⟨le_rfl, by simp, ?_⟩
      simp
    · obtain ⟨h1, h2, h3⟩ := ih (k + 1) p h
      refine ⟨by omega, by simp only [List.length_cons]; omega, ?_⟩
      rw [show p.1 - k = (p.1 - (k + 1)) + 1 by omega, List.get?_cons_succ]
      exact h3

/-! ## Lemmas: the category registry -/

theorem nodup_append_singleton {cats : List String} {c : String} (h : cats.Nodup)
    (hc : c ∉ cats) : (cats ++ [c]).Nodup := by
  simp [List.nodup_append, h, hc]

theorem edit_new_category_nodup (cats : List String) (c : String) (h : cats.Nodup) :
    (edit_expense_new_category cats c).Nodup := by
  unfold edit_expense_new_category save_category
  by_cases hv : is_valid_category c = true
  · simp only [hv, if_true]
    by_cases hm : c ∈ cats
    · simp only [hm, if_true]; exact h
    · simp only [hm, if_false]; exact nodup_append_singleton h hm
  · simp only [hv, Bool.false_eq_true, if_false]; exact h

theorem edit_new_category_prefix (cats : List String) (c : String) :
    cats <+: edit_expense_new_category cats c := by
  unfold edit_expense_new_category save_category
  by_cases hv : is_valid_category c = true
  · simp only [hv, if_true]
    by_cases hm : c ∈ cats
    · simp only [hm, if_true]; exact ⟨[], List.append_nil _⟩
    · simp only [hm, if_false]; exact List.prefix_append cats [c]
  · simp only [hv, Bool.false_eq_true, if_false]; exact ⟨[], List.append_nil _⟩

theorem edit_new_category_mem (cats : List String) (c : String) (h : c ∈ cats) :
    edit_expense_new_category cats c = cats := by
  unfold edit_expense_new_category
  by_cases hv : is_valid_category c = true
  · simp only [hv, if_true, h, if_true]
  · simp only [hv, Bool.false_eq_true, if_false]

theorem edit_ops_preserve (names : List String) :
    ∀ cats : List String, cats.Nodup →
      (applyCatOps cats (names.map CatOp.editNew)).Nodup ∧
      cats <+: applyCatOps cats (names.map CatOp.editNew) := by
  induction names with
  | nil => intro cats h; exact ⟨h, ⟨[], List.append_nil _⟩⟩
  | cons nm names ih =>
    intro cats h
    simp only [List.map_cons, applyCatOps, List.foldl_cons]
    have h1 : (applyCatOp cats (CatOp.editNew nm)).Nodup :=
      edit_new_category_nodup cats nm h
    have h2 : cats <+: applyCatOp cats (CatOp.editNew nm) :=
      edit_new_category_prefix cats nm
    obtain ⟨h3, h4⟩ := ih (applyCatOp cats (CatOp.editNew nm)) h1
    exact ⟨h3, h2.trans h4⟩

/-! ## Claims -/

/-- C1: the claim says every strictly thousands-grouped digit string with no
decimal point (in particular `"5,000"` and `"12,345"`) parses successfully
with the commas removed.  The code violates it: the comma-typo pre-check
regex `^\\d+,\\d+$` also matches single-comma grouped integers, so they are
rejected with the comma-not-decimal error before the grouping pattern of
step 4 (which does accept such shapes, as the two-comma input shows) is ever
consulted. -/
theorem C1_grouped_integer_rejected :
    validate_amount "5,000" = .error .CommaNotDecimal ∧
    validate_amount "12,345" = .error .CommaNotDecimal ∧
    validate_amount "1,234,567" = .ok 1234567 :=
  ⟨by decide, by decide, by decide⟩

/-- C3 counterexample: the claim says a name already present in the
vocabulary is never appended a second time, but adding an expense through the
"Other / Add New Category" path with the existing name `"Food"` appends it
again, destroying distinctness. -/
theorem C3_add_duplicates_counterexample :
    applyCatOps defaultCategories [CatOp.addNew "Food"] =
      defaultCategories ++ ["Food"] ∧
    ¬ (applyCatOps defaultCategories [CatOp.addNew "Food"]).Nodup :=
  ⟨by decide, by decide⟩

/-- C3 amended: names appended through the edit path are never duplicated
(an existing name leaves the vocabulary unchanged) and insertion order is
preserved; the add-expense path appends unconditionally, so it preserves
distinctness only when the name is not already present (and always preserves
insertion order). -/
theorem C3_registry_growth_amended (names : List String) (cats : List String)
    (h : cats.Nodup) :
    ((applyCatOps cats (names.map CatOp.editNew)).Nodup ∧
      cats <+: applyCatOps cats (names.map CatOp.editNew)) ∧
    (∀ c, c ∈ cats → edit_expense_new_category cats c = cats) ∧
    (∀ c, c ∉ cats → (add_expense_new_category cats c).Nodup ∧
      cats <+: add_expense_new_category cats c) := by
  refine ⟨edit_ops_preserve names cats h, ?_, ?_⟩
  · exact fun c hc => edit_new_category_mem cats c hc
  · intro c hc
    unfold add_expense_new_category save_category
    by_cases hv : is_valid_category c = true
    · simp only [hv, if_true]
      exact ⟨nodup_append_singleton h hc, List.prefix_append cats [c]⟩
    · simp only [hv, Bool.false_eq_true, if_false]
      exact ⟨h, ⟨[], List.append_nil _⟩⟩

/-- C3 amended, witness: two edits (one existing name, one fresh) starting
from the seeded vocabulary keep it duplicate-free. -/
theorem C3_registry_growth_amended_witness :
    defaultCategories.Nodup ∧
    (applyCatOps defaultCategories (["Food", "Cafe"].map CatOp.editNew)).Nodup :=
  ⟨by decide,
   ((C3_registry_growth_amended ["Food", "Cafe"] defaultCategories (by decide)).1).1⟩

/-- C4: `deleteMany` keeps exactly the rows whose 1-based ordinal is not in
the batch (processing in descending order, so the result is the positional
filter), preserving the relative order of survivors; out-of-bounds ordinals
are dropped silently, and a batch with no valid ordinal reports the
no-valid-targets error with the store unchanged. -/
theorem C4_delete_many (rows : List Row) (ords : List ℤ) :
    ((∃ o ∈ ords, 1 ≤ o ∧ o ≤ (rows.length : ℤ)) →
        delete_many rows ords =
          .ok (keepWhere (fun k => !decide (((k : ℤ) + 1) ∈ ords)) rows 0) ∧
        (keepWhere (fun k => !decide (((k : ℤ) + 1) ∈ ords)) rows 0).Sublist rows) ∧
    (¬ (∃ o ∈ ords, 1 ≤ o ∧ o ≤ (rows.length : ℤ)) →
        delete_many rows ords = .error "No valid IDs provided") :=
  ⟨fun h => ⟨(delete_many_spec rows ords).1 h, keepWhere_sublist rows 0⟩,
   (delete_many_spec rows ords).2⟩

/-- C4 witness: `deleteMany {2, 5, 99}` on a 5-record store deletes ordinals
2 and 5 only, ignores 99, and leaves records 1, 3, 4 in original order. -/
theorem C4_delete_many_witness :
    (∃ o ∈ ([2, 5, 99] : List ℤ), 1 ≤ o ∧
        o ≤ (([["a"], ["b"], ["c"], ["d"], ["e"]] : List Row).length : ℤ)) ∧
    delete_many [["a"], ["b"], ["c"], ["d"], ["e"]] [2, 5, 99] =
      .ok [["a"], ["c"], ["d"]] := by
  refine ⟨by decide, ?_⟩
  rw [((C4_delete_many [["a"], ["b"], ["c"], ["d"], ["e"]] [2, 5, 99]).1 (by decide)).1]
  decide

/-- C5: an ordinal outside `1..count` makes `edit` report an error (the
invalid-ID error on a nonempty store) leaving the store unchanged; an
in-range ordinal addressing a well-formed row succeeds and rewrites exactly
the category, description and amount fields of that row — its date field and
every other row are unchanged. -/
theorem C5_edit_frame (rows : List Row) (ordinal : ℕ) (c d a : String) :
    (rows = [] → ∃ e, edit_expense rows ordinal c d a = .error e) ∧
    (rows ≠ [] → ¬ (1 ≤ ordinal ∧ ordinal ≤ rows.length) →
        edit_expense rows ordinal c d a = .error "Invalid ID") ∧
    ((1 ≤ ordinal ∧ ordinal ≤ rows.length) →
     (rows.getD (ordinal - 1) []).length = 4 →
        edit_expense rows ordinal c d a = .ok (updateAt rows (ordinal - 1) c d a) ∧
        (updateAt rows (ordinal - 1) c d a).length = rows.length ∧
        (∀ j, j ≠ ordinal - 1 →
          (updateAt rows (ordinal - 1) c d a).get? j = rows.get? j) ∧
        (updateAt rows (ordinal - 1) c d a).get? (ordinal - 1)
          = (rows.get? (ordinal - 1)).map (fun r => updateRow r c d a) ∧
        (∀ f0 f1 f2 f3 : String, updateRow [f0, f1, f2, f3] c d a = [f0, c, d, a])) := by
  refine ⟨?_, ?_, ?_⟩
  · rintro rfl
    exact ⟨"No records found to edit.", rfl⟩
  · intro hne hord
    unfold edit_expense
    rw [if_neg (by rw [List.isEmpty_iff]; exact hne), if_neg hord]
  · intro hord hlen
    have hne : rows ≠ [] := by
      intro hnil
      rw [hnil] at hord
      simp at hord
      omega
    refine ⟨?_, updateAt_length rows (ordinal - 1) c d a,
      fun j hj => updateAt_get?_ne rows (ordinal - 1) j c d a hj,
      updateAt_get?_eq rows (ordinal - 1) c d a,
      fun f0 f1 f2 f3 => rfl⟩
    unfold edit_expense
    rw [if_neg (by rw [List.isEmpty_iff]; exact hne), if_pos hord, if_neg (by omega)]

/-- C5 witness: editing ordinal 2 of a 2-record store rewrites that row and
leaves row 1 untouched. -/
theorem C5_edit_frame_witness :
    (1 ≤ 2 ∧ 2 ≤ ([["x0", "c0", "d0", "a0"], ["x1", "c1", "d1", "a1"]] : List Row).length) ∧
    edit_expense [["x0", "c0", "d0", "a0"], ["x1", "c1", "d1", "a1"]] 2 "Dining" "Lunch" "175.50"
      = .ok [["x0", "c0", "d0", "a0"], ["x1", "Dining", "Lunch", "175.50"]] := by
  refine ⟨by decide, ?_⟩
  rw [((C5_edit_frame [["x0", "c0", "d0", "a0"], ["x1", "c1", "d1", "a1"]] 2
    "Dining" "Lunch" "175.50").2.2 (by decide) (by decide)).1]
  decide

/-- C6: the parser rejects `"5,0,0"` and `"5,00.00"` with the
malformed-grouping error and accepts `"5000"` and `"5,000.00"`, both with the
underlying value 5000. -/
theorem C6_parser_examples :
    validate_amount "5,0,0" = .error .MalformedNumber ∧
    validate_amount "5,00.00" = .error .MalformedNumber ∧
    validate_amount "5000" = .ok 5000 ∧
    validate_amount "5,000.00" = .ok 5000 :=
  ⟨by decide, by decide, by decide, by decide⟩

/-- C7: backing up an empty store fails with the empty-store error and no
archive is produced; a nonempty store is copied verbatim into a new
timestamp-named archive. -/
theorem C7_backup_empty_store (st : AppState) (ts : String) :
    (st.data = [] →
        backup_data st ts = .error "Cannot create backup: There are no records to save.") ∧
    (st.data ≠ [] →
        backup_data st ts =
          .ok { st with backups := st.backups ++ [("backup_" ++ ts ++ ".csv", st.data)] }) := by
  constructor
  · intro h
    unfold backup_data
    rw [if_pos (by rw [List.isEmpty_iff]; exact h)]
  · intro h
    unfold backup_data
    rw [if_neg (by rw [List.isEmpty_iff]; exact h)]

/-- C7 witness: backup on the empty store reports the empty-store error. -/
theorem C7_backup_empty_store_witness :
    (⟨[], []⟩ : AppState).data = [] ∧
    backup_data ⟨[], []⟩ "20240101_000000" =
      .error "Cannot create backup: There are no records to save." :=
  ⟨rfl, (C7_backup_empty_store ⟨[], []⟩ "20240101_000000").1 rfl⟩

/-- C8: restore in append mode concatenates the selected archive rows after
the existing rows, with no reordering or deduplication; an invalid archive
selection reports an error in every mode and the live record set is
unchanged. -/
theorem C8_restore_append (st : AppState) (choice : ℕ) :
    ((1 ≤ choice ∧ choice ≤ (listBackups st).length) →
        recover_data st choice .append =
          .ok { st with
                data := st.data ++ ((listBackups st).getD (choice - 1) ("", [])).2 }) ∧
    (¬ (1 ≤ choice ∧ choice ≤ (listBackups st).length) →
        ∀ mode, ∃ e, recover_data st choice mode = .error e) := by
  constructor
  · intro h
    have hne : listBackups st ≠ [] := by
      intro hnil
      rw [hnil] at h
      simp at h
      omega
    unfold recover_data
    rw [if_neg (by rw [List.isEmpty_iff]; exact hne), if_pos h]
  · intro h mode
    unfold recover_data
    by_cases he : (listBackups st).isEmpty = true
    · exact ⟨"No backups found", by rw [if_pos he]⟩
    · exact ⟨"Error: Backup ID does not exist.", by rw [if_neg he, if_neg h]⟩

/-- C8 witness: appending the only archive onto a 1-record store yields the
existing row followed by the archive rows. -/
theorem C8_restore_append_witness :
    (1 ≤ 1 ∧
      1 ≤ (listBackups ⟨[["a"]], [("backup_1.csv", [["b"], ["c"]])]⟩).length) ∧
    recover_data ⟨[["a"]], [("backup_1.csv", [["b"], ["c"]])]⟩ 1 .append =
      .ok ⟨[["a"], ["b"], ["c"]], [("backup_1.csv", [["b"], ["c"]])]⟩ := by
  refine ⟨by decide, ?_⟩
  rw [(C8_restore_append ⟨[["a"]], [("backup_1.csv", [["b"], ["c"]])]⟩ 1).1 (by decide)]
  decide

/-- C9: the amount parser is total — on every input it returns either a
positive value or one of the typed errors; the final numeric conversion is
guarded (empty or dot-only residue gives the not-a-number error, a lone comma
is caught by the grouping check). -/
theorem C9_parser_total :
    (∀ s : String,
      (∃ v, validate_amount s = .ok v ∧ 0 < v) ∨ (∃ e, validate_amount s = .error e)) ∧
    validate_amount "" = .error .NotANumber ∧
    validate_amount "." = .error .NotANumber ∧
    validate_amount "," = .error .MalformedNumber ∧
    validate_amount "abc" = .error .NotANumber := by
  refine ⟨?_, by decide, by decide, by decide, by decide⟩
  intro s
  unfold validate_amount validateChars
  by_cases h1 : (strip s.toList).head? = some '-'
  · rw [if_pos h1]
    exact Or.inr ⟨_, rfl⟩
  · rw [if_neg h1]
    by_cases h2 : matchCommaTypo (strip s.toList) = true
    · rw [if_pos h2]
      exact Or.inr ⟨_, rfl⟩
    · rw [if_neg h2]
      set clean := s.toList.filter (fun c => c.isDigit || c == '.' || c == ',') with hc
      by_cases h3 : clean.count ',' ≠ 0 ∧ matchNumFormat clean = false
      · rw [if_pos h3]
        exact Or.inr ⟨_, rfl⟩
      · rw [if_neg h3]
        rcases hpf : parseFloat (clean.filter (fun c => c != ',')) with _ | v
        · exact Or.inr ⟨AmountError.NotANumber, rfl⟩
        · by_cases h4 : v ≤ 0
          · refine Or.inr ⟨AmountError.NonPositiveAmount, ?_⟩
            show (if v ≤ 0 then Except.error AmountError.NonPositiveAmount
              else Except.ok v) = _
            rw [if_pos h4]
          · refine Or.inl ⟨v, ?_, lt_of_not_le h4⟩
            show (if v ≤ 0 then Except.error AmountError.NonPositiveAmount
              else Except.ok v) = _
            rw [if_neg h4]

/-- C10: a malformed row still occupies its ordinal — the listing numbers
rows by raw position (so IDs can have gaps), and the same raw position is
what `edit` and `deleteMany` index, so the ordinal shown for a well-formed
record addresses exactly that record in the mutators. -/
theorem C10_listing_ordinals (rows : List Row) (i : ℕ) (r : Row) (c d a : String)
    (h : (i, r) ∈ display_rows rows) :
    1 ≤ i ∧ i ≤ rows.length ∧ rows.get? (i - 1) = some r ∧ r.length = 4 ∧
    edit_expense rows i c d a = .ok (updateAt rows (i - 1) c d a) ∧
    delete_many rows [(i : ℤ)] = .ok (rows.eraseIdx (i - 1)) := by
  obtain ⟨hmem, hlenb⟩ := List.mem_filter.mp h
  have hlen4 : r.length = 4 := by simpa using hlenb
  obtain ⟨h1, h2, h3⟩ := mem_numberRows rows 1 (i, r) hmem
  have hile : i ≤ rows.length := by omega
  have hidx : i - 1 < rows.length := by
    obtain ⟨hlt, _⟩ := List.get?_eq_some.mp h3
    exact hlt
  have hgetD : rows.getD (i - 1) [] = r := by
    rw [List.getD_eq_get?, h3]
    rfl
  have hne : rows ≠ [] := by
    intro hnil
    rw [hnil] at hidx
    simp at hidx
  refine ⟨h1, hile, h3, hlen4, ?_, ?_⟩
  · unfold edit_expense
    rw [if_neg (by rw [List.isEmpty_iff]; exact hne), if_pos ⟨h1, hile⟩,
      if_neg (by rw [hgetD]; omega)]
  · have hex : ∃ o ∈ ([(i : ℤ)] : List ℤ), 1 ≤ o ∧ o ≤ (rows.length : ℤ) :=
      ⟨(i : ℤ), List.mem_singleton_self _, by exact_mod_cast h1, by exact_mod_cast hile⟩
    rw [(delete_many_spec rows [(i : ℤ)]).1 hex]
    congr 1
    apply keepWhere_eraseIdx rows (i - 1) hidx
    · have he : ((i - 1 : ℕ) : ℤ) + 1 = (i : ℤ) := by omega
      simp [List.mem_singleton, he]
    · intro j hj
      have he : ¬ ((j : ℤ) + 1 = (i : ℤ)) := by omega
      simp [List.mem_singleton, he]

/-- C10 witness: in a store whose second row is malformed, the listing shows
IDs 1 and 3; ordinal 3 addresses the third raw row both in `edit` and in
`deleteMany`. -/
theorem C10_listing_ordinals_witness :
    (3, ["2024-01-02", "Transport", "Bus", "50.00"]) ∈
      display_rows [["2024-01-01", "Food", "Lunch", "100.00"], ["bad"],
        ["2024-01-02", "Transport", "Bus", "50.00"]] ∧
    edit_expense [["2024-01-01", "Food", "Lunch", "100.00"], ["bad"],
        ["2024-01-02", "Transport", "Bus", "50.00"]] 3 "Travel" "Taxi" "80.00" =
      .ok [["2024-01-01", "Food", "Lunch", "100.00"], ["bad"],
        ["2024-01-02", "Travel", "Taxi", "80.00"]] ∧
    delete_many [["2024-01-01", "Food", "Lunch", "100.00"], ["bad"],
        ["2024-01-02", "Transport", "Bus", "50.00"]] [((3 : ℕ) : ℤ)] =
      .ok [["2024-01-01", "Food", "Lunch", "100.00"], ["bad"]] := by
  have h := C10_listing_ordinals
    [["2024-01-01", "Food", "Lunch", "100.00"], ["bad"],
      ["2024-01-02", "Transport", "Bus", "50.00"]] 3
    ["2024-01-02", "Transport", "Bus", "50.00"] "Travel" "Taxi" "80.00" (by decide)
  refine ⟨by decide, ?_, ?_⟩
  · rw [h.2.2.2.2.1]
    decide
  · rw [h.2.2.2.2.2]
    decide

example : validate_amount "5,000" = .error .CommaNotDecimal := by decide
example : validate_amount "12,345" = .error .CommaNotDecimal := by decide
example : validate_amount "5,0,0" = .error .MalformedNumber := by decide
example : validate_amount "5,00.00" = .error .MalformedNumber := by decide
example : validate_amount "5000" = .ok 5000 := by decide
example : validate_amount "5,000.00" = .ok 5000 := by decide
example : validate_amount "1,234,567" = .ok 1234567 := by decide
example : validate_amount "" = .error .NotANumber := by decide
example : validate_amount "." = .error .NotANumber := by decide
example : validate_amount "," = .error .MalformedNumber := by decide
example : validate_amount "abc" = .error .NotANumber := by decide
example : validate_amount "-5" = .error .NegativeValue := by decide
example : validate_amount "0" = .error .NonPositiveAmount := by decide
example : validate_amount "45,7" = .error .CommaNotDecimal := by decide
example : validate_amount "₱1,234.56" = .ok (mkRat 123456 100) := by decide
example : validate_amount "0.50" = .ok (mkRat 1 2) := by decide

end HomeEase
